import Mathlib

/-!
Verification of `src/constraintPropagation.ts` (AC-3 arc-consistency propagation).

Shallow embedding of the TypeScript module into Lean 4. The source mutates the
CSP's domain map in place; here all state is passed explicitly: an operation
that mutates the CSP returns the updated CSP. JavaScript exceptions (e.g.
`Map.get` returning `undefined` followed by a property access) are modelled by
`Option`: `none` is a thrown exception, `some` a normal return.

JavaScript truthiness matters in one place: `revise` tests
`!respectDomain.find(...)`. `Array.prototype.find` returns the first matching
element (or `undefined`), and `!` then applies `ToBoolean` to that *element*.
A falsy element (for numbers: `0`) therefore counts as "no support found".
The embedding takes the host language's `ToBoolean` on the value type as an
explicit parameter `falsy : T → Bool`; for `T = Int` (JS numbers) the faithful
instantiation is `falsy v = (v == 0)`.
-/

/-- Source `type Variable = string`. -/
abbrev Variable := String

/-- Source `type Arc<T>`: a relation pair plus a binary boolean constraint. -/
structure Arc (T : Type) where
  relation : Variable × Variable
  constraint : T → T → Bool

/-- Source `interface CSP<T>` with fields `variables`, `domains`, `arcs`.
The field `variables` is spelled `vars` because `variables` is a Lean keyword.
The `Map` is modelled as an association list; `mapGet`/`mapSet` below model
`Map.get` and in-place replacement of the array stored under a key. -/
structure CSP (T : Type) where
  vars : List Variable
  domains : List (Variable × List T)
  arcs : List (Arc T)

/-- Models `csp.domains.get(v)`: first binding wins (a JS `Map` has unique keys). -/
def mapGet {T : Type} : List (Variable × List T) → Variable → Option (List T)
  | [], _ => none
  | (k, d) :: rest, v => if k = v then some d else mapGet rest v

/-- Replacing (in place) the array stored under key `v`. Models the fact that
`pruneDomain` mutates the very array object the map points to; a missing key
leaves the map unchanged (the source never hits that case). -/
def mapSet {T : Type} : List (Variable × List T) → Variable → List T → List (Variable × List T)
  | [], _, _ => []
  | (k, d) :: rest, v, newD => if k = v then (k, newD) :: rest else (k, d) :: mapSet rest v newD

/-- The reverse arc pushed by `makeArcsSymmetric`:
`{ relation: [respectVariable, prunedVariable], constraint: (x, y) => arc.constraint(y, x) }`. -/
def reverseArc {T : Type} (arc : Arc T) : Arc T :=
  { relation := (arc.relation.2, arc.relation.1)
    constraint := fun x y => arc.constraint y x }

/-- Source `makeArcsSymmetric`: copies the input (`slice()`), then `forEach` over the
copy pushes one reverse arc per original arc. `forEach` fixes its iteration
range before the first callback runs, so exactly the original arcs are
visited even though the loop appends to the array it iterates. -/
def makeArcsSymmetric {T : Type} (arcsArg : List (Arc T)) : List (Arc T) :=
  arcsArg.foldl (fun arcs arc => arcs ++ [reverseArc arc]) arcsArg

/-- Source `arcsWithRespectTo(variable, csp)`: filters `csp.arcs` (note: the CSP's
own, un-symmetrized arc list) for arcs whose respect variable is `variable`. -/
def arcsWithRespectTo {T : Type} (v : Variable) (csp : CSP T) : List (Arc T) :=
  csp.arcs.filter (fun arc => arc.relation.2 == v)

/-- The support test inside `revise`:
`!respectDomain.find(respectVal => arc.constraint(pruneVal, respectVal))`.
`find` returns the first matching element or `undefined`; `!` coerces that
value, so a found but falsy supporter counts as no support. -/
def noSupport {T : Type} (falsy : T → Bool) (arc : Arc T) (respectDomain : List T)
    (pruneVal : T) : Bool :=
  match respectDomain.find? (fun respectVal => arc.constraint pruneVal respectVal) with
  | none => true
  | some found => falsy found

/-- Source `pruneDomain(domain, valuesToRemove)`: copies the array, empties it in
place, and pushes back the survivors in order — i.e. an order-preserving
filter. `valuesToRemove` is a JS `Set`; only membership in it is used. -/
def pruneDomain {T : Type} [DecidableEq T] (domain : List T) (valuesToRemove : List T) : List T :=
  domain.filter (fun val => !valuesToRemove.contains val)

/-- Source `revise(arc, csp)`: marks every value of the pruned variable's domain that
has no (truthy) support in the respect variable's domain, removes the marked
values in place, and reports whether anything was marked. The JS `Set` of
marked values is modelled by the sublist of marked values (membership and
emptiness agree with the set, which is all `pruneDomain` and the `revised`
flag use). `none` models the `TypeError` thrown when a relation variable has
no binding in `csp.domains`. The updated CSP is returned alongside the
boolean since the source mutates `csp` in place. -/
def revise {T : Type} [DecidableEq T] (falsy : T → Bool) (arc : Arc T) (csp : CSP T) :
    Option (CSP T × Bool) :=
  match mapGet csp.domains arc.relation.1, mapGet csp.domains arc.relation.2 with
  | some prunedDomain, some respectDomain =>
    some ({ csp with
              domains := mapSet csp.domains arc.relation.1
                (pruneDomain prunedDomain
                  (prunedDomain.filter (noSupport falsy arc respectDomain))) },
          !(prunedDomain.filter (noSupport falsy arc respectDomain)).isEmpty)
  | _, _ => none

/-- Sum of the lengths of all stored domains; the decreasing measure of the
AC-3 worklist loop. -/
def domainsSize {T : Type} (d : List (Variable × List T)) : Nat :=
  (d.map (fun p => p.2.length)).sum

theorem revise_eq {T : Type} [DecidableEq T] (falsy : T → Bool) (arc : Arc T) (csp : CSP T)
    (pd rd : List T) (hP : mapGet csp.domains arc.relation.1 = some pd)
    (hR : mapGet csp.domains arc.relation.2 = some rd) :
    revise falsy arc csp = some
      ({ csp with
           domains := mapSet csp.domains arc.relation.1
             (pruneDomain pd (pd.filter (noSupport falsy arc rd))) },
       !(pd.filter (noSupport falsy arc rd)).isEmpty) := by
  unfold revise
  rw [hP, hR]

theorem length_filter_lt_of_mem_not {T : Type} (p : T → Bool) :
    ∀ (l : List T) (x : T), x ∈ l → p x = false → (l.filter p).length < l.length := by
  intro l
  induction l with
  | nil => intro x hx _; cases hx
  | cons a rest ih =>
    intro x hx hpx
    cases hpa : p a with
    | false =>
      rw [List.filter_cons_of_neg (by simp [hpa])]
      have := List.length_filter_le p rest
      simp only [List.length_cons]
      omega
    | true =>
      rw [List.filter_cons_of_pos (by simp [hpa])]
      have hxr : x ∈ rest := by
        rcases List.mem_cons.mp hx with h | h
        · rw [h] at hpx; rw [hpa] at hpx; cases hpx
        · exact h
      have := ih x hxr hpx
      simp only [List.length_cons]
      omega

theorem domainsSize_mapSet_lt {T : Type} :
    ∀ (d : List (Variable × List T)) (k : Variable) (old newD : List T),
      mapGet d k = some old → newD.length < old.length →
      domainsSize (mapSet d k newD) < domainsSize d := by
  intro d
  induction d with
  | nil => intro k old newD h; simp [mapGet] at h
  | cons hd rest ih =>
    intro k old newD hget hlt
    obtain ⟨k', dom⟩ := hd
    by_cases hk : k' = k
    · rw [hk] at hget ⊢
      simp only [mapGet, if_pos rfl] at hget
      injection hget with hget
      rw [← hget] at hlt
      simp only [mapSet, if_pos rfl, domainsSize, List.map_cons, List.sum_cons]
      exact Nat.add_lt_add_right hlt _
    · simp only [mapGet, if_neg hk] at hget
      simp only [mapSet, if_neg hk, domainsSize, List.map_cons, List.sum_cons]
      exact Nat.add_lt_add_left (ih k old newD hget hlt) _

theorem mapSet_get_self {T : Type} :
    ∀ (d : List (Variable × List T)) (k : Variable) (old : List T),
      mapGet d k = some old → mapSet d k old = d := by
  intro d
  induction d with
  | nil => intro k old h; simp [mapGet] at h
  | cons hd rest ih =>
    intro k old hget
    obtain ⟨k', dom⟩ := hd
    by_cases hk : k' = k
    · rw [hk] at hget ⊢
      simp only [mapGet, if_pos rfl] at hget
      injection hget with hget
      rw [mapSet, if_pos rfl, hget]
    · simp only [mapGet, if_neg hk] at hget
      rw [mapSet, if_neg hk, ih k old hget]

/-- A revision that removed nothing leaves the CSP untouched. -/
theorem revise_false_eq {T : Type} [DecidableEq T] (falsy : T → Bool) (arc : Arc T)
    (csp csp' : CSP T) (h : revise falsy arc csp = some (csp', false)) : csp' = csp := by
  cases hP : mapGet csp.domains arc.relation.1 with
  | none => unfold revise at h; rw [hP] at h; cases h
  | some pd =>
    cases hR : mapGet csp.domains arc.relation.2 with
    | none => unfold revise at h; rw [hP, hR] at h; cases h
    | some rd =>
      rw [revise_eq falsy arc csp pd rd hP hR] at h
      simp only [Option.some.injEq, Prod.mk.injEq] at h
      obtain ⟨hcsp, hrev⟩ := h
      have hnil : pd.filter (noSupport falsy arc rd) = [] := by
        cases hE : pd.filter (noSupport falsy arc rd) with
        | nil => rfl
        | cons a t => rw [hE] at hrev; simp [List.isEmpty] at hrev
      rw [hnil] at hcsp
      have hprune : pruneDomain pd ([] : List T) = pd := by
        unfold pruneDomain
        apply List.filter_eq_self.mpr
        intro a _
        simp [List.contains]
      rw [hprune, mapSet_get_self csp.domains arc.relation.1 pd hP] at hcsp
      exact hcsp.symm

/-- A revision that removed something strictly shrinks the total domain size. -/
theorem revise_true_size {T : Type} [DecidableEq T] (falsy : T → Bool) (arc : Arc T)
    (csp csp' : CSP T) (h : revise falsy arc csp = some (csp', true)) :
    domainsSize csp'.domains < domainsSize csp.domains := by
  cases hP : mapGet csp.domains arc.relation.1 with
  | none => unfold revise at h; rw [hP] at h; cases h
  | some pd =>
    cases hR : mapGet csp.domains arc.relation.2 with
    | none => unfold revise at h; rw [hP, hR] at h; cases h
    | some rd =>
      rw [revise_eq falsy arc csp pd rd hP hR] at h
      simp only [Option.some.injEq, Prod.mk.injEq] at h
      obtain ⟨hcsp, hrev⟩ := h
      rw [← hcsp]
      have hne : pd.filter (noSupport falsy arc rd) ≠ [] := by
        intro hcon
        rw [hcon] at hrev
        simp [List.isEmpty] at hrev
      obtain ⟨x, hx⟩ := List.exists_mem_of_ne_nil _ hne
      have hxp : x ∈ pd := List.mem_of_mem_filter hx
      have hxrem : (pd.filter (noSupport falsy arc rd)).contains x = true := by
        exact List.elem_eq_true_of_mem hx
      have hlen : (pruneDomain pd (pd.filter (noSupport falsy arc rd))).length < pd.length := by
        apply length_filter_lt_of_mem_not _ pd x hxp
        show (!(pd.filter (noSupport falsy arc rd)).contains x) = false
        rw [hxrem]
        rfl
      exact domainsSize_mapSet_lt csp.domains arc.relation.1 pd _ hP hlen

/-- The `while (arcQueue.length > 0)` loop of `ac3`, with the queue and the
(mutated-in-place) CSP as explicit state. One call = one iteration:
`shift()` the front arc, `revise` it, and on a revision either fail on a
wiped-out domain or `push` the arcs returned by
`arcsWithRespectTo(prunedVariable, csp)` — note: filtered from `csp.arcs`,
not from the symmetrized queue. Termination: a re-enqueueing iteration
strictly shrinks the total domain size, any other iteration shortens the
queue. -/
def ac3Loop {T : Type} [DecidableEq T] (falsy : T → Bool) (csp : CSP T)
    (queue : List (Arc T)) : Option (CSP T × Bool) :=
  match queue with
  | [] => some (csp, true)
  | arc :: rest =>
    match h : revise falsy arc csp with
    | none => none
    | some (csp', true) =>
      match mapGet csp'.domains arc.relation.1 with
      | none => none
      | some d =>
        if d.length = 0 then some (csp', false)
        else ac3Loop falsy csp' (rest ++ arcsWithRespectTo arc.relation.1 csp')
    | some (csp', false) => ac3Loop falsy csp' rest
termination_by (domainsSize csp.domains, queue.length)
decreasing_by
· apply Prod.Lex.left
  exact revise_true_size falsy arc csp csp' h
· have hc := revise_false_eq falsy arc csp csp' h
  rw [hc]
  apply Prod.Lex.right
  simp

/-- Source `ac3(csp)`: build the symmetrized worklist and run the propagation loop.
The boolean result of the source is returned together with the final CSP
state (the source leaves it behind as a side effect on its argument). -/
def ac3 {T : Type} [DecidableEq T] (falsy : T → Bool) (csp : CSP T) : Option (CSP T × Bool) :=
  ac3Loop falsy csp (makeArcsSymmetric csp.arcs)

/-- Fuel-indexed version of `ac3Loop`, branch-for-branch identical; `none`
means the fuel ran out before the loop finished. It makes iteration counts
explicit (termination claims) and, being structurally recursive, lets
concrete runs be evaluated by `rfl`. -/
def ac3Fuel {T : Type} [DecidableEq T] (falsy : T → Bool) :
    Nat → CSP T → List (Arc T) → Option (Option (CSP T × Bool))
  | 0, _, _ => none
  | Nat.succ n, csp, queue =>
    match queue with
    | [] => some (some (csp, true))
    | arc :: rest =>
      match revise falsy arc csp with
      | none => some none
      | some (csp', true) =>
        match mapGet csp'.domains arc.relation.1 with
        | none => some none
        | some d =>
          if d.length = 0 then some (some (csp', false))
          else ac3Fuel falsy n csp' (rest ++ arcsWithRespectTo arc.relation.1 csp')
      | some (csp', false) => ac3Fuel falsy n csp' rest

theorem foldl_append_reverseArc {T : Type} :
    ∀ (l init : List (Arc T)),
      l.foldl (fun arcs arc => arcs ++ [reverseArc arc]) init = init ++ l.map reverseArc := by
  intro l
  induction l with
  | nil => intro init; simp
  | cons a t ih =>
    intro init
    simp only [List.foldl_cons, List.map_cons]
    rw [ih (init ++ [reverseArc a])]
    simp [List.append_assoc]

theorem makeArcsSymmetric_eq {T : Type} (l : List (Arc T)) :
    makeArcsSymmetric l = l ++ l.map reverseArc := by
  unfold makeArcsSymmetric
  exact foldl_append_reverseArc l l

/-- Claim C4: for every arc sequence, `makeArcsSymmetric` returns a sequence of
exactly double the input length: every input arc unchanged (the first half),
followed by, for each input arc `(A,B,c)` in order, a synthesized reverse arc
`(B,A,c')` with `c'(x,y) = c(y,x)` for all value pairs. The embedding is
pure, which reflects that the source copies the input with `slice()` and
never writes to the argument array, so the input sequence is not mutated. -/
theorem c4_makeArcsSymmetric_spec {T : Type} (l : List (Arc T)) :
    (makeArcsSymmetric l).length = 2 * l.length ∧
    (makeArcsSymmetric l).take l.length = l ∧
    (makeArcsSymmetric l).drop l.length = l.map reverseArc ∧
    ∀ arc : Arc T, (reverseArc arc).relation.1 = arc.relation.2 ∧
      (reverseArc arc).relation.2 = arc.relation.1 ∧
      ∀ x y : T, (reverseArc arc).constraint x y = arc.constraint y x := by
  rw [makeArcsSymmetric_eq]
  refine ⟨?_, ?_, ?_, ?_⟩
  · rw [List.length_append, List.length_map]
    omega
  · exact List.take_left l (l.map reverseArc)
  · exact List.drop_left l (l.map reverseArc)
  · intro arc
    exact ⟨rfl, rfl, fun x y => rfl⟩

theorem ac3Loop_nil {T : Type} [DecidableEq T] (falsy : T → Bool) (csp : CSP T) :
    ac3Loop falsy csp [] = some (csp, true) := by
  simp [ac3Loop]

theorem ac3Loop_cons_none {T : Type} [DecidableEq T] (falsy : T → Bool) (csp : CSP T)
    (arc : Arc T) (rest : List (Arc T)) (h : revise falsy arc csp = none) :
    ac3Loop falsy csp (arc :: rest) = none := by
  rw [ac3Loop.eq_def]
  split
  · rename_i heq
    cases heq
  · rename_i arc2 rest2 heq
    injection heq with h1 h2
    rw [← h1, ← h2]
    split
    · rfl
    · rename_i c2 heq2
      rw [h] at heq2
      cases heq2
    · rename_i c2 heq2
      rw [h] at heq2
      cases heq2

theorem ac3Loop_cons_false {T : Type} [DecidableEq T] (falsy : T → Bool) (csp csp' : CSP T)
    (arc : Arc T) (rest : List (Arc T)) (h : revise falsy arc csp = some (csp', false)) :
    ac3Loop falsy csp (arc :: rest) = ac3Loop falsy csp' rest := by
  rw [ac3Loop.eq_def]
  split
  · rename_i heq
    cases heq
  · rename_i arc2 rest2 heq
    injection heq with h1 h2
    rw [← h1, ← h2]
    split
    · rename_i heq2
      rw [h] at heq2
      cases heq2
    · rename_i c2 heq2
      rw [h] at heq2
      simp at heq2
    · rename_i c2 heq2
      rw [h] at heq2
      simp only [Option.some.injEq, Prod.mk.injEq] at heq2
      rw [heq2.1]

theorem ac3Loop_cons_true_none {T : Type} [DecidableEq T] (falsy : T → Bool) (csp csp' : CSP T)
    (arc : Arc T) (rest : List (Arc T)) (h : revise falsy arc csp = some (csp', true))
    (hl : mapGet csp'.domains arc.relation.1 = none) :
    ac3Loop falsy csp (arc :: rest) = none := by
  rw [ac3Loop.eq_def]
  split
  · rename_i heq
    cases heq
  · rename_i arc2 rest2 heq
    injection heq with h1 h2
    rw [← h1, ← h2]
    split
    · rfl
    · rename_i c2 heq2
      rw [h] at heq2
      simp only [Option.some.injEq, Prod.mk.injEq] at heq2
      rw [← heq2.1, hl]
    · rename_i c2 heq2
      rw [h] at heq2
      simp at heq2

theorem ac3Loop_cons_true_wipe {T : Type} [DecidableEq T] (falsy : T → Bool) (csp csp' : CSP T)
    (arc : Arc T) (rest : List (Arc T)) (d : List T)
    (h : revise falsy arc csp = some (csp', true))
    (hl : mapGet csp'.domains arc.relation.1 = some d) (hd : d.length = 0) :
    ac3Loop falsy csp (arc :: rest) = some (csp', false) := by
  rw [ac3Loop.eq_def]
  split
  · rename_i heq
    cases heq
  · rename_i arc2 rest2 heq
    injection heq with h1 h2
    rw [← h1, ← h2]
    split
    · rename_i heq2
      rw [h] at heq2
      cases heq2
    · rename_i c2 heq2
      rw [h] at heq2
      simp only [Option.some.injEq, Prod.mk.injEq] at heq2
      rw [← heq2.1, hl]
      simp [hd]
    · rename_i c2 heq2
      rw [h] at heq2
      simp at heq2

theorem ac3Loop_cons_true_step {T : Type} [DecidableEq T] (falsy : T → Bool) (csp csp' : CSP T)
    (arc : Arc T) (rest : List (Arc T)) (d : List T)
    (h : revise falsy arc csp = some (csp', true))
    (hl : mapGet csp'.domains arc.relation.1 = some d) (hd : ¬ d.length = 0) :
    ac3Loop falsy csp (arc :: rest) =
      ac3Loop falsy csp' (rest ++ arcsWithRespectTo arc.relation.1 csp') := by
  rw [ac3Loop.eq_def]
  split
  · rename_i heq
    cases heq
  · rename_i arc2 rest2 heq
    injection heq with h1 h2
    rw [← h1, ← h2]
    split
    · rename_i heq2
      rw [h] at heq2
      cases heq2
    · rename_i c2 heq2
      rw [h] at heq2
      simp only [Option.some.injEq, Prod.mk.injEq] at heq2
      rw [← heq2.1, hl]
      simp [hd]
    · rename_i c2 heq2
      rw [h] at heq2
      simp at heq2

/-- When the fuelled loop completes, it computes exactly `ac3Loop`. -/
theorem ac3Fuel_sound {T : Type} [DecidableEq T] (falsy : T → Bool) :
    ∀ (n : Nat) (csp : CSP T) (queue : List (Arc T)) (r : Option (CSP T × Bool)),
      ac3Fuel falsy n csp queue = some r → ac3Loop falsy csp queue = r := by
  intro n
  induction n with
  | zero =>
    intro csp queue r h
    cases h
  | succ n ih =>
    intro csp queue r h
    cases queue with
    | nil =>
      rw [ac3Fuel] at h
      injection h with h
      rw [ac3Loop_nil, h]
    | cons arc rest =>
      rw [ac3Fuel] at h
      cases hrev : revise falsy arc csp with
      | none =>
        rw [hrev] at h
        injection h with h
        rw [ac3Loop_cons_none falsy csp arc rest hrev, h]
      | some p =>
        obtain ⟨csp', b⟩ := p
        cases b with
        | false =>
          rw [hrev] at h
          rw [ac3Loop_cons_false falsy csp csp' arc rest hrev]
          exact ih csp' rest r h
        | true =>
          rw [hrev] at h
          cases hl : mapGet csp'.domains arc.relation.1 with
          | none =>
            simp only [hl] at h
            injection h with h
            rw [ac3Loop_cons_true_none falsy csp csp' arc rest hrev hl, h]
          | some d =>
            simp only [hl] at h
            by_cases hd : d.length = 0
            · rw [if_pos hd] at h
              injection h with h
              rw [ac3Loop_cons_true_wipe falsy csp csp' arc rest d hrev hl hd, h]
            · rw [if_neg hd] at h
              rw [ac3Loop_cons_true_step falsy csp csp' arc rest d hrev hl hd]
              exact ih csp' _ r h

/-- Enough fuel always exists: the propagation loop performs finitely many
iterations. Strong induction on the total domain size; within one size
level an iteration that shrinks nothing shortens the queue. -/
theorem ac3Fuel_total {T : Type} [DecidableEq T] (falsy : T → Bool) :
    ∀ (N : Nat) (csp : CSP T) (queue : List (Arc T)), domainsSize csp.domains ≤ N →
      ∃ n r, ac3Fuel falsy n csp queue = some r := by
  intro N
  induction N using Nat.strong_induction_on with
  | _ N ihN =>
    intro csp queue hsize
    induction queue with
    | nil => exact ⟨1, some (csp, true), rfl⟩
    | cons arc rest ihq =>
      cases hrev : revise falsy arc csp with
      | none =>
        refine ⟨1, none, ?_⟩
        simp only [ac3Fuel, hrev]
      | some p =>
        obtain ⟨csp', b⟩ := p
        cases b with
        | false =>
          have hc := revise_false_eq falsy arc csp csp' hrev
          obtain ⟨n, r, hn⟩ := ihq
          refine ⟨n + 1, r, ?_⟩
          simp only [ac3Fuel, hrev, hc]
          exact hn
        | true =>
          cases hl : mapGet csp'.domains arc.relation.1 with
          | none =>
            refine ⟨1, none, ?_⟩
            simp only [ac3Fuel, hrev, hl]
          | some d =>
            by_cases hd : d.length = 0
            · refine ⟨1, some (csp', false), ?_⟩
              simp only [ac3Fuel, hrev, hl, if_pos hd]
            · have hlt : domainsSize csp'.domains < domainsSize csp.domains :=
                revise_true_size falsy arc csp csp' hrev
              have hM : domainsSize csp'.domains < N := lt_of_lt_of_le hlt hsize
              obtain ⟨n, r, hn⟩ := ihN (domainsSize csp'.domains) hM csp'
                (rest ++ arcsWithRespectTo arc.relation.1 csp') (le_refl _)
              refine ⟨n + 1, r, ?_⟩
              simp only [ac3Fuel, hrev, hl, if_neg hd]
              exact hn

theorem mapGet_mapSet_ne {T : Type} :
    ∀ (d : List (Variable × List T)) (k v : Variable) (x : List T), v ≠ k →
      mapGet (mapSet d k x) v = mapGet d v := by
  intro d
  induction d with
  | nil => intro k v x _; rfl
  | cons hd rest ih =>
    intro k v x hvk
    obtain ⟨k', dom⟩ := hd
    by_cases hk : k' = k
    · rw [hk]
      simp only [mapSet, if_pos rfl]
      have hk'v : ¬ k = v := fun hc => hvk hc.symm
      simp only [mapGet, if_neg hk'v]
    · simp only [mapSet, if_neg hk]
      by_cases hk'v : k' = v
      · simp only [mapGet, if_pos hk'v]
      · simp only [mapGet, if_neg hk'v]
        exact ih k v x hvk

theorem mapGet_mapSet_self {T : Type} :
    ∀ (d : List (Variable × List T)) (k : Variable) (old x : List T),
      mapGet d k = some old → mapGet (mapSet d k x) k = some x := by
  intro d
  induction d with
  | nil => intro k old x h; cases h
  | cons hd rest ih =>
    intro k old x hget
    obtain ⟨k', dom⟩ := hd
    by_cases hk : k' = k
    · rw [hk]
      simp [mapSet, mapGet]
    · simp only [mapGet, if_neg hk] at hget
      simp only [mapSet, if_neg hk, mapGet, if_neg hk]
      exact ih k old x hget

theorem mapGet_mapSet_isSome {T : Type} :
    ∀ (d : List (Variable × List T)) (k v : Variable) (x : List T),
      (mapGet (mapSet d k x) v).isSome = (mapGet d v).isSome := by
  intro d k v x
  by_cases hvk : v = k
  · rw [hvk]
    cases hget : mapGet d k with
    | none =>
      have : mapGet (mapSet d k x) k = none := by
        clear hvk
        induction d with
        | nil => rfl
        | cons hd rest ih =>
          obtain ⟨k', dom⟩ := hd
          by_cases hk : k' = k
          · rw [hk] at hget ⊢
            simp only [mapGet, if_pos rfl] at hget
            cases hget
          · simp only [mapGet, if_neg hk] at hget
            simp only [mapSet, if_neg hk, mapGet, if_neg hk]
            exact ih hget
      rw [this]
    | some old =>
      rw [mapGet_mapSet_self d k old x hget]
      rfl
  · rw [mapGet_mapSet_ne d k v x hvk]

/-- Inversion of a successful `revise`: recover the two domains read and the
exact shape of the returned state and flag. -/
theorem revise_some_inv {T : Type} [DecidableEq T] (falsy : T → Bool) (arc : Arc T)
    (csp csp' : CSP T) (b : Bool) (h : revise falsy arc csp = some (csp', b)) :
    ∃ pd rd, mapGet csp.domains arc.relation.1 = some pd ∧
      mapGet csp.domains arc.relation.2 = some rd ∧
      csp' = { csp with
                 domains := mapSet csp.domains arc.relation.1
                   (pruneDomain pd (pd.filter (noSupport falsy arc rd))) } ∧
      b = !(pd.filter (noSupport falsy arc rd)).isEmpty := by
  cases hP : mapGet csp.domains arc.relation.1 with
  | none => unfold revise at h; rw [hP] at h; cases h
  | some pd =>
    cases hR : mapGet csp.domains arc.relation.2 with
    | none => unfold revise at h; rw [hP, hR] at h; cases h
    | some rd =>
      rw [revise_eq falsy arc csp pd rd hP hR] at h
      simp only [Option.some.injEq, Prod.mk.injEq] at h
      exact ⟨pd, rd, rfl, rfl, h.1.symm, h.2.symm⟩

theorem revise_isSome_of_keys {T : Type} [DecidableEq T] (falsy : T → Bool) (arc : Arc T)
    (csp : CSP T) (hP : (mapGet csp.domains arc.relation.1).isSome = true)
    (hR : (mapGet csp.domains arc.relation.2).isSome = true) :
    ∃ csp' b, revise falsy arc csp = some (csp', b) := by
  cases hPg : mapGet csp.domains arc.relation.1 with
  | none => rw [hPg] at hP; cases hP
  | some pd =>
    cases hRg : mapGet csp.domains arc.relation.2 with
    | none => rw [hRg] at hR; cases hR
    | some rd =>
      exact ⟨_, _, revise_eq falsy arc csp pd rd hPg hRg⟩

theorem revise_frame {T : Type} [DecidableEq T] (falsy : T → Bool) (arc : Arc T)
    (csp csp' : CSP T) (b : Bool) (h : revise falsy arc csp = some (csp', b)) :
    csp'.vars = csp.vars ∧ csp'.arcs = csp.arcs ∧
      ∀ v : Variable, v ≠ arc.relation.1 → mapGet csp'.domains v = mapGet csp.domains v := by
  obtain ⟨pd, rd, hP, hR, hshape, hb⟩ := revise_some_inv falsy arc csp csp' b h
  rw [hshape]
  exact ⟨rfl, rfl, fun v hv => mapGet_mapSet_ne csp.domains arc.relation.1 v _ hv⟩

theorem revise_keys_isSome {T : Type} [DecidableEq T] (falsy : T → Bool) (arc : Arc T)
    (csp csp' : CSP T) (b : Bool) (h : revise falsy arc csp = some (csp', b)) (v : Variable) :
    (mapGet csp'.domains v).isSome = (mapGet csp.domains v).isSome := by
  obtain ⟨pd, rd, hP, hR, hshape, hb⟩ := revise_some_inv falsy arc csp csp' b h
  rw [hshape]
  exact mapGet_mapSet_isSome csp.domains arc.relation.1 v _

/-- Pointwise "the domain map only shrank": the same variables are bound, and
each stored domain is an order-preserving subsequence (`List.Sublist`) of
what it was before. -/
def domainsLe {T : Type} (d' d : List (Variable × List T)) : Prop :=
  ∀ v : Variable, (mapGet d' v = none ∧ mapGet d v = none) ∨
    ∃ l' l, mapGet d' v = some l' ∧ mapGet d v = some l ∧ l'.Sublist l

theorem domainsLe_refl {T : Type} (d : List (Variable × List T)) : domainsLe d d := by
  intro v
  cases h : mapGet d v with
  | none => exact Or.inl ⟨rfl, rfl⟩
  | some l => exact Or.inr ⟨l, l, rfl, rfl, List.Sublist.refl l⟩

theorem domainsLe_trans {T : Type} (d₃ d₂ d₁ : List (Variable × List T))
    (h32 : domainsLe d₃ d₂) (h21 : domainsLe d₂ d₁) : domainsLe d₃ d₁ := by
  intro v
  rcases h32 v with ⟨h3, h2⟩ | ⟨l3, l2, h3, h2, hs32⟩
  · rcases h21 v with ⟨h2', h1⟩ | ⟨l2', l1, h2', h1, hs21⟩
    · exact Or.inl ⟨h3, h1⟩
    · rw [h2] at h2'
      cases h2'
  · rcases h21 v with ⟨h2', h1⟩ | ⟨l2', l1, h2', h1, hs21⟩
    · rw [h2] at h2'
      cases h2'
    · rw [h2] at h2'
      injection h2' with he
      subst he
      exact Or.inr ⟨l3, l1, h3, h1, hs32.trans hs21⟩

theorem domainsLe_mapSet {T : Type} (d : List (Variable × List T)) (k : Variable)
    (old newD : List T) (hget : mapGet d k = some old) (hsub : newD.Sublist old) :
    domainsLe (mapSet d k newD) d := by
  intro v
  by_cases hvk : v = k
  · subst hvk
    exact Or.inr ⟨newD, old, mapGet_mapSet_self d v old newD hget, hget, hsub⟩
  · rw [mapGet_mapSet_ne d k v newD hvk]
    exact domainsLe_refl d v

theorem revise_domainsLe {T : Type} [DecidableEq T] (falsy : T → Bool) (arc : Arc T)
    (csp csp' : CSP T) (b : Bool) (h : revise falsy arc csp = some (csp', b)) :
    domainsLe csp'.domains csp.domains := by
  obtain ⟨pd, rd, hP, hR, hshape, hb⟩ := revise_some_inv falsy arc csp csp' b h
  rw [hshape]
  have hsub : (pruneDomain pd (pd.filter (noSupport falsy arc rd))).Sublist pd := by
    unfold pruneDomain
    exact List.filter_sublist pd
  exact domainsLe_mapSet csp.domains arc.relation.1 pd _ hP hsub

/-- The loop never changes `vars` or `arcs` (it only reads them). -/
theorem ac3Fuel_frame {T : Type} [DecidableEq T] (falsy : T → Bool) :
    ∀ (n : Nat) (csp : CSP T) (queue : List (Arc T)) (csp' : CSP T) (b : Bool),
      ac3Fuel falsy n csp queue = some (some (csp', b)) →
      csp'.vars = csp.vars ∧ csp'.arcs = csp.arcs := by
  intro n
  induction n with
  | zero => intro csp queue csp' b h; cases h
  | succ n ih =>
    intro csp queue csp' b h
    cases queue with
    | nil =>
      simp only [ac3Fuel, Option.some.injEq, Prod.mk.injEq] at h
      rw [← h.1]
      exact ⟨rfl, rfl⟩
    | cons arc rest =>
      cases hrev : revise falsy arc csp with
      | none => simp [ac3Fuel, hrev] at h
      | some p =>
        obtain ⟨c2, b2⟩ := p
        cases b2 with
        | false =>
          simp only [ac3Fuel, hrev] at h
          have hc := revise_false_eq falsy arc csp c2 hrev
          rw [hc] at h
          exact ih csp rest csp' b h
        | true =>
          cases hl : mapGet c2.domains arc.relation.1 with
          | none => simp [ac3Fuel, hrev, hl] at h
          | some d =>
            have hframe := revise_frame falsy arc csp c2 true hrev
            by_cases hd : d.length = 0
            · simp only [ac3Fuel, hrev, hl, if_pos hd, Option.some.injEq, Prod.mk.injEq] at h
              rw [← h.1]
              exact ⟨hframe.1, hframe.2.1⟩
            · simp only [ac3Fuel, hrev, hl, if_neg hd] at h
              have hstep := ih c2 _ csp' b h
              exact ⟨hstep.1.trans hframe.1, hstep.2.trans hframe.2.1⟩

/-- Over any completed run of the loop, domains only shrink. -/
theorem ac3Fuel_domainsLe {T : Type} [DecidableEq T] (falsy : T → Bool) :
    ∀ (n : Nat) (csp : CSP T) (queue : List (Arc T)) (csp' : CSP T) (b : Bool),
      ac3Fuel falsy n csp queue = some (some (csp', b)) →
      domainsLe csp'.domains csp.domains := by
  intro n
  induction n with
  | zero => intro csp queue csp' b h; cases h
  | succ n ih =>
    intro csp queue csp' b h
    cases queue with
    | nil =>
      simp only [ac3Fuel, Option.some.injEq, Prod.mk.injEq] at h
      rw [← h.1]
      exact domainsLe_refl csp.domains
    | cons arc rest =>
      cases hrev : revise falsy arc csp with
      | none => simp [ac3Fuel, hrev] at h
      | some p =>
        obtain ⟨c2, b2⟩ := p
        cases b2 with
        | false =>
          simp only [ac3Fuel, hrev] at h
          have hc := revise_false_eq falsy arc csp c2 hrev
          rw [hc] at h
          exact ih csp rest csp' b h
        | true =>
          have hrle := revise_domainsLe falsy arc csp c2 true hrev
          cases hl : mapGet c2.domains arc.relation.1 with
          | none => simp [ac3Fuel, hrev, hl] at h
          | some d =>
            by_cases hd : d.length = 0
            · simp only [ac3Fuel, hrev, hl, if_pos hd, Option.some.injEq, Prod.mk.injEq] at h
              rw [← h.1]
              exact hrle
            · simp only [ac3Fuel, hrev, hl, if_neg hd] at h
              have hstep := ih c2 _ csp' b h
              exact domainsLe_trans csp'.domains c2.domains csp.domains hstep hrle

/-- Claim C7: over any completed run of the `ac3` worklist loop — from any
state and queue, hence at every intermediate step of `ac3`, whether the run
returns `true` or `false` — every variable's domain only shrinks or stays
the same: each final domain is an order-preserving subsequence
(`List.Sublist`, hence also a sub-multiset) of that variable's domain at
entry; no value is ever added and no binding appears or disappears. -/
theorem c7_domains_only_shrink {T : Type} [DecidableEq T] (falsy : T → Bool) (csp : CSP T)
    (queue : List (Arc T)) (csp' : CSP T) (b : Bool)
    (h : ac3Loop falsy csp queue = some (csp', b)) :
    domainsLe csp'.domains csp.domains := by
  obtain ⟨n, r, hn⟩ := ac3Fuel_total falsy (domainsSize csp.domains) csp queue (le_refl _)
  have hagree := ac3Fuel_sound falsy n csp queue r hn
  rw [h] at hagree
  rw [← hagree] at hn
  exact ac3Fuel_domainsLe falsy n csp queue csp' b hn

/-- Claim C10: if the arc list is empty, `ac3` returns `true` and leaves the
CSP — in particular every domain, empty ones included — unchanged: the
symmetrized worklist is empty, so no `revise` and no wipeout check ever
runs; an empty domain alone never causes a `false` return. -/
theorem c10_empty_arcs {T : Type} [DecidableEq T] (falsy : T → Bool) (csp : CSP T)
    (h : csp.arcs = []) : ac3 falsy csp = some (csp, true) := by
  unfold ac3
  rw [h]
  exact ac3Loop_nil falsy csp

/-- Claim C8, amended: a successful `revise` on arc `(P,R,c)` mutates only
`P`'s domain binding: every variable other than `P` — in particular `R`
whenever `R ≠ P` — keeps its domain unchanged, and the CSP's variable list
and arc list are unchanged. (The claim's unconditional "R's domain is
unchanged" fails for self-arcs `R = P`; see the counterexample.) -/
theorem c8_revise_frame {T : Type} [DecidableEq T] (falsy : T → Bool) (arc : Arc T)
    (csp csp' : CSP T) (b : Bool) (h : revise falsy arc csp = some (csp', b)) :
    csp'.vars = csp.vars ∧ csp'.arcs = csp.arcs ∧
      ∀ v : Variable, v ≠ arc.relation.1 → mapGet csp'.domains v = mapGet csp.domains v :=
  revise_frame falsy arc csp csp' b h

/-- Models JS `ToBoolean` on numbers, with `Int` modelling JS numbers: `0` is falsy. -/
def falsyInt : Int → Bool := fun v => v == 0

/-- Forget the (function-valued) arcs of a result, keeping the observable
domain map and boolean, so that concrete results can be stated decidably. -/
def domainsOf {T : Type} (r : Option (CSP T × Bool)) :
    Option (List (Variable × List T) × Bool) :=
  r.map (fun p => (p.1.domains, p.2))

/-- Bool-valued arc-consistency check over a list of arcs and a domain map:
every value of each arc's pruned side has a supporting value on the respect
side (the property of claim C1; arcs with unbound variables are skipped). -/
def arcConsistentB {T : Type} (arcs : List (Arc T)) (domains : List (Variable × List T)) : Bool :=
  arcs.all fun arc =>
    match mapGet domains arc.relation.1, mapGet domains arc.relation.2 with
    | some dA, some dB => dA.all fun a => dB.any fun b => arc.constraint a b
    | _, _ => true

def arcPX : Arc Int := { relation := ("P", "X"), constraint := fun p x => !(p == x) }

def arcPQ : Arc Int := { relation := ("P", "Q"), constraint := fun p q => p == q }

def arcQY : Arc Int := { relation := ("Q", "Y"), constraint := fun q _y => q == 1 }

/-- A CSP on which `ac3` returns `true` without having established arc
consistency (claims C1, C5): pruning `P` after the reverse arc `(X,P)` was
last checked is never followed by a re-check of `(X,P)`, because
`arcsWithRespectTo` draws from the un-symmetrized `csp.arcs`, which contains
no arc with respect variable `P`. -/
def cex1 : CSP Int :=
  { vars := ["X", "P", "Q", "Y"]
    domains := [("X", [1, 2]), ("P", [1, 2]), ("Q", [1, 2]), ("Y", [1, 2])]
    arcs := [arcPX, arcPQ, arcQY] }

def cex1Domains : List (Variable × List Int) :=
  [("X", [1, 2]), ("P", [1]), ("Q", [1]), ("Y", [1, 2])]

/-- The state `ac3` leaves behind on `cex1`. -/
def cex1After : CSP Int :=
  { vars := ["X", "P", "Q", "Y"], domains := cex1Domains, arcs := [arcPX, arcPQ, arcQY] }

def cex1Domains2 : List (Variable × List Int) :=
  [("X", [2]), ("P", [1]), ("Q", [1]), ("Y", [1, 2])]

/-- The state a second run of `ac3` leaves behind on `cex1After`. -/
def cex1After2 : CSP Int :=
  { vars := ["X", "P", "Q", "Y"], domains := cex1Domains2, arcs := [arcPX, arcPQ, arcQY] }


/-- Claim C1, refuting evaluation: on `cex1` the code returns `true`, yet the
symmetrized arc set is not arc-consistent on the final domains: value `1` of
`X` has no support in `P`'s final domain `[1]` under the reverse arc
`(X,P)`. Cause: after the final revision of `P`, re-enqueueing scans
`csp.arcs` (no arc there has respect variable `P`) instead of the
symmetrized arc set, so the reverse arc `(X,P)` is never re-checked. -/
theorem c1_counterexample :
    ac3 falsyInt cex1 = some (cex1After, true) ∧
    arcConsistentB (makeArcsSymmetric cex1.arcs) cex1After.domains = false := by
  constructor
  · exact ac3Fuel_sound falsyInt 20 cex1 (makeArcsSymmetric cex1.arcs)
      (some (cex1After, true)) rfl
  · rfl

/-- Claim C5, refuting evaluation: `ac3` returns `true` on `cex1`, leaving
`cex1After`; a second run on that result prunes further — `X`'s domain
shrinks from `[1, 2]` to `[2]` — so the state after a successful run is not
a fixed point. -/
theorem c5_counterexample :
    ac3 falsyInt cex1 = some (cex1After, true) ∧
    ac3 falsyInt cex1After = some (cex1After2, true) ∧
    cex1After2.domains ≠ cex1After.domains := by
  refine ⟨?_, ?_, ?_⟩
  · exact ac3Fuel_sound falsyInt 20 cex1 (makeArcsSymmetric cex1.arcs)
      (some (cex1After, true)) rfl
  · exact ac3Fuel_sound falsyInt 20 cex1After (makeArcsSymmetric cex1After.arcs)
      (some (cex1After2, true)) rfl
  · decide

def arcAB : Arc Int := { relation := ("A", "B"), constraint := fun a b => a == b }

/-- Two-variable CSP whose only arc prunes `A`; used to exhibit the
re-enqueue discrepancy of C2 and as the concrete run for several witnesses. -/
def cex2 : CSP Int :=
  { vars := ["A", "B"], domains := [("A", [1, 2]), ("B", [1])], arcs := [arcAB] }

/-- The state `ac3` (and already its first `revise`) leaves behind on `cex2`. -/
def cex2After : CSP Int :=
  { vars := ["A", "B"], domains := [("A", [1]), ("B", [1])], arcs := [arcAB] }

/-- Claim C2, refuting evaluation: in the first iteration of `ac3` on `cex2`,
`revise` returns `true` with non-empty pruned domain (first conjunct: the
actual call), so the loop appends `arcsWithRespectTo "A"` — filtered from
the *un-symmetrized* `csp.arcs`, which yields no arc — whereas the original
symmetrized arc set contains exactly one arc with respect variable `"A"`
(the reverse arc `(B,A)`). The appended arcs are not those of the
symmetrized set. -/
theorem c2_counterexample :
    domainsOf (revise falsyInt arcAB cex2) = some ([("A", [1]), ("B", [1])], true) ∧
    arcsWithRespectTo "A" cex2After = [] ∧
    ((makeArcsSymmetric cex2.arcs).filter (fun a => a.relation.2 == "A")).length = 1 :=
  ⟨rfl, rfl, rfl⟩

def arcPRtrue : Arc Int := { relation := ("P", "R"), constraint := fun _ _ => true }

/-- CSP whose one arc is satisfied by every value pair, but whose respect
domain holds the JS-falsy number `0`. -/
def cex3 : CSP Int :=
  { vars := ["P", "R"], domains := [("P", [1]), ("R", [0])], arcs := [arcPRtrue] }

/-- Claim C3, refuting evaluation: `revise` on arc `(P,R,c)` with `c` true everywhere,
`P = [1]`, `R = [0]`: value `1` of `P` *is* supported (`c 1 0 = true`,
`0 ∈ R`), yet the call removes it and returns `true`, because
`!respectDomain.find(...)` applies JS `ToBoolean` to the found supporter
`0`, which is falsy. "Every removed value had no support at call time" is
false of the code. -/
theorem c3_counterexample :
    domainsOf (revise falsyInt arcPRtrue cex3) = some ([("P", []), ("R", [0])], true) ∧
    arcPRtrue.constraint 1 0 = true ∧
    mapGet cex3.domains "R" = some [0] :=
  ⟨rfl, rfl, rfl⟩

def arcAA : Arc Int := { relation := ("A", "A"), constraint := fun _ _ => false }

/-- One-variable CSP with a self-arc. -/
def cex8 : CSP Int := { vars := ["A"], domains := [("A", [1])], arcs := [arcAA] }

/-- Claim C8, counterexample: for the self-arc `(A,A,c)` — pruned and respect
variable are the same variable, which has a domain entry — a successful
`revise` changes `R`'s domain: under `relation.2` (the respect variable) the
domain is `[1]` before the call and `[]` after, contradicting "R's domain is
unchanged". -/
theorem c8_counterexample :
    (revise falsyInt arcAA cex8).map (fun p => mapGet p.1.domains arcAA.relation.2) =
      some (some []) ∧
    mapGet cex8.domains arcAA.relation.2 = some [1] :=
  ⟨rfl, rfl⟩

/-- Witness for C8: the amended frame theorem applied to the concrete
`revise` run on `cex2`. -/
theorem c8_witness :
    cex2After.vars = cex2.vars ∧ cex2After.arcs = cex2.arcs ∧
      ∀ v : Variable, v ≠ arcAB.relation.1 →
        mapGet cex2After.domains v = mapGet cex2.domains v :=
  c8_revise_frame falsyInt arcAB cex2 cex2After true rfl

/-- Witness for C7: the shrink theorem applied to the completed run of the
loop on `cex2`. -/
theorem c7_witness : domainsLe cex2After.domains cex2.domains :=
  c7_domains_only_shrink falsyInt cex2 (makeArcsSymmetric cex2.arcs) cex2After true
    (ac3Fuel_sound falsyInt 5 cex2 (makeArcsSymmetric cex2.arcs) (some (cex2After, true)) rfl)

/-- CSP with no arcs and an already-empty domain. -/
def cex10 : CSP Int := { vars := ["A", "B"], domains := [("A", []), ("B", [1])], arcs := [] }

/-- Witness for C10: on an arcless CSP with an empty domain, `ac3` returns
`true` with the CSP unchanged. -/
theorem c10_witness : ac3 falsyInt cex10 = some (cex10, true) :=
  c10_empty_arcs falsyInt cex10 rfl

/-- Claim C9: for every CSP — finitely many variables, finite domains and arc
list are inherent in the `List` model — in which every variable referenced
by an arc has a domain entry, `ac3` terminates: some finite fuel `n`
(a bound on the number of worklist iterations) completes the fuelled loop,
with the same result as `ac3`. An arc is only re-enqueued after a revision
that strictly shrank a domain, and domains never grow, which is the measure
behind `ac3Fuel_total`. -/
theorem c9_termination {T : Type} [DecidableEq T] (falsy : T → Bool) (csp : CSP T)
    (hkeys : ∀ a ∈ csp.arcs, (mapGet csp.domains a.relation.1).isSome = true ∧
      (mapGet csp.domains a.relation.2).isSome = true) :
    ∃ n r, ac3Fuel falsy n csp (makeArcsSymmetric csp.arcs) = some r ∧
      ac3 falsy csp = r := by
  obtain ⟨n, r, hn⟩ := ac3Fuel_total falsy (domainsSize csp.domains) csp
    (makeArcsSymmetric csp.arcs) (le_refl _)
  exact ⟨n, r, hn, ac3Fuel_sound falsy n csp (makeArcsSymmetric csp.arcs) r hn⟩

/-- Witness for C9 at the concrete CSP `cex2`. -/
theorem c9_witness :
    ∃ n r, ac3Fuel falsyInt n cex2 (makeArcsSymmetric cex2.arcs) = some r ∧
      ac3 falsyInt cex2 = r :=
  c9_termination falsyInt cex2 (by decide)

/-- A `revise` on an arc whose constraint rejects every pair, when the pruned
domain is non-empty, removes everything and reports a revision. -/
theorem revise_allFalse {T : Type} [DecidableEq T] (falsy : T → Bool) (arc : Arc T)
    (csp : CSP T) (pd rd : List T) (hfalse : ∀ x y, arc.constraint x y = false)
    (hP : mapGet csp.domains arc.relation.1 = some pd)
    (hR : mapGet csp.domains arc.relation.2 = some rd) (hne : pd ≠ []) :
    ∃ csp', revise falsy arc csp = some (csp', true) ∧
      mapGet csp'.domains arc.relation.1 = some [] := by
  have hns : ∀ p, noSupport falsy arc rd p = true := by
    intro p
    unfold noSupport
    have hfind : rd.find? (fun r => arc.constraint p r) = none := by
      apply List.find?_eq_none.mpr
      intro x _
      simp [hfalse p x]
    rw [hfind]
  have hfilter : pd.filter (noSupport falsy arc rd) = pd := by
    apply List.filter_eq_self.mpr
    intro a ha
    simp [hns a]
  have hprune : pruneDomain pd pd = [] := by
    unfold pruneDomain
    apply List.filter_eq_nil_iff.mpr
    intro a ha
    have hc : pd.contains a = true := List.elem_eq_true_of_mem ha
    simp [hc]
    exact ha
  have hrev := revise_eq falsy arc csp pd rd hP hR
  rw [hfilter, hprune] at hrev
  have hflag : (!pd.isEmpty) = true := by
    cases pd with
    | nil => exact absurd rfl hne
    | cons p0 pt => rfl
  rw [hflag] at hrev
  exact ⟨_, hrev, mapGet_mapSet_self csp.domains arc.relation.1 pd [] hP⟩

/-- If the queue holds an arc whose constraint rejects every pair and whose
pruned variable currently has a non-empty domain — and all arcs in sight
have bound variables — then the completed loop reports `false`. -/
theorem ac3Fuel_false_of_bad {T : Type} [DecidableEq T] (falsy : T → Bool) :
    ∀ (n : Nat) (csp : CSP T) (queue : List (Arc T)) (r : Option (CSP T × Bool)),
      ac3Fuel falsy n csp queue = some r →
      (∀ a ∈ csp.arcs, (mapGet csp.domains a.relation.1).isSome = true ∧
        (mapGet csp.domains a.relation.2).isSome = true) →
      (∀ a ∈ queue, (mapGet csp.domains a.relation.1).isSome = true ∧
        (mapGet csp.domains a.relation.2).isSome = true) →
      (∃ a ∈ queue, (∀ x y, a.constraint x y = false) ∧
        ∃ pd, mapGet csp.domains a.relation.1 = some pd ∧ pd ≠ []) →
      ∃ cspF, r = some (cspF, false) := by
  intro n
  induction n with
  | zero => intro csp queue r h _ _ _; cases h
  | succ n ih =>
    intro csp queue r h hark hqueue hbad
    cases queue with
    | nil =>
      obtain ⟨a, ha, _⟩ := hbad
      cases ha
    | cons arc rest =>
      have hkeysArc := hqueue arc (List.mem_cons_self arc rest)
      cases hrev : revise falsy arc csp with
      | none =>
        obtain ⟨c', b', hsome⟩ := revise_isSome_of_keys falsy arc csp hkeysArc.1 hkeysArc.2
        rw [hrev] at hsome
        cases hsome
      | some p =>
        obtain ⟨c2, b2⟩ := p
        cases b2 with
        | false =>
          simp only [ac3Fuel, hrev] at h
          have hc := revise_false_eq falsy arc csp c2 hrev
          rw [hc] at h
          refine ih csp rest r h hark (fun a ha => hqueue a (List.mem_cons_of_mem arc ha)) ?_
          obtain ⟨a, ha, hfalse, pd, hpd, hpdne⟩ := hbad
          rcases List.mem_cons.mp ha with haeq | harest
          · exfalso
            cases hRg : mapGet csp.domains a.relation.2 with
            | none =>
              have := (hqueue a ha).2
              rw [hRg] at this
              cases this
            | some rd =>
              obtain ⟨cT, hT, _⟩ := revise_allFalse falsy a csp pd rd hfalse hpd hRg hpdne
              rw [haeq] at hT
              rw [hrev] at hT
              simp at hT
          · exact ⟨a, harest, hfalse, pd, hpd, hpdne⟩
        | true =>
          cases hl : mapGet c2.domains arc.relation.1 with
          | none =>
            have hpres := revise_keys_isSome falsy arc csp c2 true hrev arc.relation.1
            rw [hl, hkeysArc.1] at hpres
            cases hpres
          | some d =>
            by_cases hd : d.length = 0
            · simp only [ac3Fuel, hrev, hl, if_pos hd, Option.some.injEq] at h
              exact ⟨c2, h.symm⟩
            · simp only [ac3Fuel, hrev, hl, if_neg hd] at h
              have hframe := revise_frame falsy arc csp c2 true hrev
              have hpres := revise_keys_isSome falsy arc csp c2 true hrev
              have hark2 : ∀ a ∈ c2.arcs, (mapGet c2.domains a.relation.1).isSome = true ∧
                  (mapGet c2.domains a.relation.2).isSome = true := by
                intro a ha
                rw [hframe.2.1] at ha
                exact ⟨(hpres a.relation.1).trans ((hark a ha).1),
                       (hpres a.relation.2).trans ((hark a ha).2)⟩
              refine ih c2 (rest ++ arcsWithRespectTo arc.relation.1 c2) r h hark2 ?_ ?_
              · intro a ha
                rcases List.mem_append.mp ha with ha | ha
                · have := hqueue a (List.mem_cons_of_mem arc ha)
                  exact ⟨(hpres a.relation.1).trans this.1, (hpres a.relation.2).trans this.2⟩
                · exact hark2 a (List.mem_of_mem_filter ha)
              · obtain ⟨a, ha, hfalse, pd, hpd, hpdne⟩ := hbad
                rcases List.mem_cons.mp ha with haeq | harest
                · exfalso
                  cases hRg : mapGet csp.domains a.relation.2 with
                  | none =>
                    have := (hqueue a ha).2
                    rw [hRg] at this
                    cases this
                  | some rd =>
                    obtain ⟨cT, hT, hTempty⟩ :=
                      revise_allFalse falsy a csp pd rd hfalse hpd hRg hpdne
                    rw [haeq] at hT hTempty
                    rw [hrev] at hT
                    simp only [Option.some.injEq, Prod.mk.injEq] at hT
                    rw [← hT.1] at hTempty
                    rw [hTempty] at hl
                    injection hl with hl
                    rw [← hl] at hd
                    exact hd rfl
                · refine ⟨a, List.mem_append_left _ harest, hfalse, ?_⟩
                  by_cases hsame : a.relation.1 = arc.relation.1
                  · refine ⟨d, ?_, ?_⟩
                    · rw [hsame]
                      exact hl
                    · intro hcon
                      rw [hcon] at hd
                      exact hd rfl
                  · refine ⟨pd, ?_, hpdne⟩
                    rw [hframe.2.2 a.relation.1 hsame]
                    exact hpd

/-- Claim C6: for every CSP respecting the domain-entry invariant that
contains an arc whose constraint returns `false` for every value pair, with
both endpoint domains non-empty, `ac3` returns the boolean `false` rather
than throwing: either an earlier revision already wiped out a domain and
returned `false`, or the all-false arc is eventually dequeued with its
pruned domain still non-empty, empties it, and the wipeout check fires. -/
theorem c6_wipeout {T : Type} [DecidableEq T] (falsy : T → Bool) (csp : CSP T)
    (hkeys : ∀ a ∈ csp.arcs, (mapGet csp.domains a.relation.1).isSome = true ∧
      (mapGet csp.domains a.relation.2).isSome = true)
    (hbad : ∃ a ∈ csp.arcs, (∀ x y, a.constraint x y = false) ∧
      (∃ pdA, mapGet csp.domains a.relation.1 = some pdA ∧ pdA ≠ []) ∧
      (∃ pdB, mapGet csp.domains a.relation.2 = some pdB ∧ pdB ≠ [])) :
    ∃ cspF, ac3 falsy csp = some (cspF, false) := by
  obtain ⟨n, r, hn⟩ := ac3Fuel_total falsy (domainsSize csp.domains) csp
    (makeArcsSymmetric csp.arcs) (le_refl _)
  have hsound := ac3Fuel_sound falsy n csp (makeArcsSymmetric csp.arcs) r hn
  have hqueue : ∀ a ∈ makeArcsSymmetric csp.arcs,
      (mapGet csp.domains a.relation.1).isSome = true ∧
      (mapGet csp.domains a.relation.2).isSome = true := by
    intro a ha
    rw [makeArcsSymmetric_eq] at ha
    rcases List.mem_append.mp ha with ha | ha
    · exact hkeys a ha
    · obtain ⟨b, hb, hab⟩ := List.mem_map.mp ha
      rw [← hab]
      exact ⟨(hkeys b hb).2, (hkeys b hb).1⟩
  have hbad' : ∃ a ∈ makeArcsSymmetric csp.arcs, (∀ x y, a.constraint x y = false) ∧
      ∃ pd, mapGet csp.domains a.relation.1 = some pd ∧ pd ≠ [] := by
    obtain ⟨a, ha, hfalse, ⟨pdA, hA, hAne⟩, _⟩ := hbad
    refine ⟨a, ?_, hfalse, pdA, hA, hAne⟩
    rw [makeArcsSymmetric_eq]
    exact List.mem_append_left _ ha
  obtain ⟨cspF, hF⟩ := ac3Fuel_false_of_bad falsy n csp (makeArcsSymmetric csp.arcs) r hn
    hkeys hqueue hbad'
  refine ⟨cspF, ?_⟩
  unfold ac3
  rw [hsound]
  exact hF

def arcCD : Arc Int := { relation := ("C", "D"), constraint := fun _ _ => false }

/-- CSP whose only arc rejects every value pair, both domains non-empty. -/
def cex6 : CSP Int :=
  { vars := ["C", "D"], domains := [("C", [1]), ("D", [2])], arcs := [arcCD] }

/-- Witness for C6 at the concrete CSP `cex6`. -/
theorem c6_witness : ∃ cspF, ac3 falsyInt cex6 = some (cspF, false) :=
  c6_wipeout falsyInt cex6 (by decide)
    ⟨arcCD, List.mem_cons_self arcCD [],
      fun _ _ => rfl, ⟨[1], rfl, by decide⟩, ⟨[2], rfl, by decide⟩⟩
